import Mathlib

/-!
Verification of the rate-limited asynchronous LLM request broker in
`src/services/llm_connector.py`.

The module holds a module-level FIFO queue `llm_queue = asyncio.Queue()`, a
deque of send timestamps `llm_request_timestamps = deque()`, a single worker
coroutine `llm_worker` that drains the queue one job at a time, a sliding
window rate limiter inlined in the worker (back-off loop, eviction loop,
append), the submission function `send_llm_request`, and the downstream call
`_send_request` (HTTP POST, `raise_for_status`, `.json()`).

The embedding below models wall-clock time (`time.time()`) as ℚ, one job's
processing as a pure step function on the worker state, and a finite
execution as a fold of that step over a per-job schedule (dequeue delay,
elapsed time of each 1-second back-off sleep, call duration, downstream
behaviour). The configured `LLM_RATE_LIMIT` is a parameter `R` (the value is
imported from `config` but not defined in `src/config.py`; the claims all
quantify over positive `R`).
-/

namespace LLMConnector

/-! ### Downstream call: `_send_request` (lines 56-59) and its failure modes -/

/-- The exceptions that `_send_request` can raise, as seen by the worker's
`except Exception` handler: `httpx.HTTPStatusError` from
`response.raise_for_status()` (carrying the status code and response body),
a transport-level `httpx.TransportError` (no response was received), and the
decode error raised by `response.json()` on a non-JSON body. -/
inductive LLMError where
  | httpStatusError (status : ℕ) (body : String)
  | transportError (msg : String)
  | jsonDecodeError (body : String)
  deriving DecidableEq, Repr

/-- An HTTP response as far as `_send_request` inspects it: status code and
raw body. -/
structure Response where
  status : ℕ
  body : String
  deriving DecidableEq, Repr

/-- What the network does for one `client.post(url, json=payload)`: either a
response comes back, or the transport fails with no response. -/
inductive Downstream where
  | reply (r : Response)
  | noResponse (msg : String)
  deriving DecidableEq, Repr

/-- The `httpx` success statuses: `raise_for_status()` returns normally exactly
for 2xx responses and raises `HTTPStatusError` otherwise. -/
def isSuccessStatus (status : ℕ) : Bool :=
  decide (200 ≤ status) && decide (status < 300)

/-- Model of `_send_request(client, url, payload)` (lines 56-59):
`response = await client.post(url, json=payload)` — modelled by the
`Downstream` behaviour; `response.raise_for_status()` — raises
`httpStatusError` on a non-2xx status; `return response.json()` — parses the
body with the (library-supplied) JSON parser `parse`, raising a decode error
when the body is not valid JSON. The result is the value returned or the
exception raised. -/
def send_request (parse : String → Option α) (d : Downstream) : Except LLMError α :=
  match d with
  | .noResponse msg => .error (.transportError msg)
  | .reply r =>
    if isSuccessStatus r.status then
      match parse r.body with
      | some v => .ok v
      | none => .error (.jsonDecodeError r.body)
    else
      .error (.httpStatusError r.status r.body)

/-! ### Result handles: `loop.create_future()` / `set_result` / `set_exception` -/

/-- An `asyncio.Future`: a single-assignment cell, created pending and
resolved at most once with either a result or an exception. -/
inductive FutureState (α : Type) where
  | pending
  | resolved (outcome : Except LLMError α)

/-- Model of `future.set_result` / `future.set_exception`: succeeds (returning the
resolved cell) only on a pending future; on an already-resolved future
asyncio raises `InvalidStateError`, modelled by `none`. -/
def FutureState.trySet (f : FutureState α) (o : Except LLMError α) : Option (FutureState α) :=
  match f with
  | .pending => some (.resolved o)
  | .resolved _ => none

/-- Model of `await future`: yields the stored outcome once the future is resolved
(`none` while pending — the caller stays suspended). The cell is immutable
after resolution, so every await sees the same outcome. -/
def FutureState.awaitResult (f : FutureState α) : Option (Except LLMError α) :=
  match f with
  | .pending => none
  | .resolved o => some o

/-! ### The admission queue: `llm_queue = asyncio.Queue()` (line 15) and
`send_llm_request` (lines 49-53) -/

/-- An `asyncio.Queue`: FIFO buffer with a capacity bound `maxsize`
(`0` means unbounded). -/
structure AsyncQueue (β : Type) where
  maxsize : ℕ
  items : List β
  deriving DecidableEq

/-- Model of `Queue.full()`: true iff the queue has a positive `maxsize` and at least
that many items. -/
def AsyncQueue.isFull (q : AsyncQueue β) : Bool :=
  decide (0 < q.maxsize) && decide (q.maxsize ≤ q.items.length)

/-- An `await queue.put(x)` suspends the caller exactly when the queue is full;
an unbounded queue is never full, so `put` on it completes immediately. -/
def AsyncQueue.putWouldBlock (q : AsyncQueue β) : Bool :=
  q.isFull

/-- The state change of `queue.put(x)`: append at the back (FIFO). -/
def AsyncQueue.put (q : AsyncQueue β) (x : β) : AsyncQueue β :=
  ⟨q.maxsize, q.items ++ [x]⟩

/-- Line 15: `llm_queue = asyncio.Queue()` — constructed with the default
`maxsize=0`, i.e. unbounded. -/
def llm_queue_maxsize : ℕ := 0

/-- A queued work item as `send_llm_request` builds it: the tuple
`(_send_request, (url, payload), {}, future)` — the function and kwargs are
fixed, so the varying payload is `(url, payload)`. -/
structure QueueItem where
  url : String
  payload : String
  deriving DecidableEq, Repr

/-- Model of `send_llm_request(url, payload)` (lines 49-53) up to its enqueue: create
a fresh (pending) future, put `(_send_request, (url, payload), {}, future)`
on `llm_queue`, and hand back the future to be awaited. The returned future
is still pending: the caller suspends only in the final `await future`, not
at submission. -/
def send_llm_request (q : AsyncQueue QueueItem) (url payload : String) :
    AsyncQueue QueueItem × FutureState α :=
  (q.put ⟨url, payload⟩, .pending)

/-! ### FIFO interleaving of submitters and the worker -/

/-- One scheduler step of the broker, as far as the queue is concerned:
either some caller's `send_llm_request` runs its `llm_queue.put`, or the
single worker runs `llm_queue.get()` (which suspends, changing nothing,
when the queue is empty). -/
inductive BrokerOp (β : Type) where
  | submit (job : β)
  | workerGet

/-- Effect of one `BrokerOp` on `(jobs processed so far, queue contents)`:
`put` appends at the back; `get` takes the front item and hands it to the
worker, which processes it next. -/
def opStep (st : List β × List β) (op : BrokerOp β) : List β × List β :=
  match op with
  | .submit j => (st.1, st.2 ++ [j])
  | .workerGet =>
    match st.2 with
    | [] => st
    | j :: rest => (st.1 ++ [j], rest)

/-- Run an arbitrary interleaving of submissions and worker dequeues from an
empty broker. -/
def runOps (ops : List (BrokerOp β)) : List β × List β :=
  ops.foldl opStep ([], [])

/-- The jobs submitted over an interleaving, in submission order. -/
def submittedJobs (ops : List (BrokerOp β)) : List β :=
  ops.filterMap fun op =>
    match op with
    | .submit j => some j
    | .workerGet => none

/-! ### The worker loop: `llm_worker` (lines 19-42) -/

/-- Line 25 condition:
`len(llm_request_timestamps) >= LLM_RATE_LIMIT and now - llm_request_timestamps[0] < 60`.
For a positive rate limit the first conjunct guarantees the deque is
nonempty, so indexing `[0]` is safe; an empty deque yields `false` here. -/
def backoffCond (R : ℕ) (w : List ℚ) (now : ℚ) : Bool :=
  decide (R ≤ w.length) &&
    (match w.head? with
     | some h => decide (now - h < 60)
     | none => false)

/-- Lines 25-28: the rate-limit back-off loop. While the window is full and
its oldest entry is younger than 60 seconds, the worker sleeps
(`asyncio.sleep(1)`) and re-reads the clock. `delays` lists the wall time
that actually elapses across each sleep (at least 1 second each); the list
is a fuel bound — 60 entries always suffice for the loop to exit on its
own (see `backoffCond_rateLimitWait`). Returns the time at which the loop
exits, i.e. the moment of admission. -/
def rateLimitWait (R : ℕ) (w : List ℚ) : ℚ → List ℚ → ℚ
  | now, [] => now
  | now, d :: ds => if backoffCond R w now then rateLimitWait R w (now + d) ds else now

/-- Lines 30-31: `while llm_request_timestamps and now - llm_request_timestamps[0] >= 60: popleft()`
— drop entries that are 60 seconds old or older from the front. -/
def evictStale (now : ℚ) : List ℚ → List ℚ
  | [] => []
  | h :: t => if 60 ≤ now - h then evictStale now t else h :: t

/-- The worker's mutable state: the current clock value and the deque
`llm_request_timestamps` (oldest first). -/
structure WorkerState where
  now : ℚ
  llm_request_timestamps : List ℚ
  deriving DecidableEq

/-- The schedule of one job's processing: how long after the previous job
the dequeue happens, how long each back-off sleep really takes, how long the
downstream call takes, and what the network does for it. -/
structure JobSched where
  dequeueDelay : ℚ
  sleepDelays : List ℚ
  sendDuration : ℚ
  downstream : Downstream
  deriving DecidableEq

/-- A schedule that the real runtime can produce: delays and durations are
nonnegative, each `asyncio.sleep(1)` lets at least 1 second pass, and the
fuel list is long enough (60 iterations always suffice) for the back-off
loop to exit on its own. -/
structure ValidSched (js : JobSched) : Prop where
  dequeue_nonneg : 0 ≤ js.dequeueDelay
  send_nonneg : 0 ≤ js.sendDuration
  sleep_ge_one : ∀ d ∈ js.sleepDelays, 1 ≤ d
  sleep_enough : 60 ≤ js.sleepDelays.length

/-- Result of one iteration of the `while True` body: the state afterwards,
the admission instant (the `now` appended at line 33, which is when the send
happens), and the job's outcome (the value passed to `set_result`, or the
exception passed to `set_exception`). -/
structure StepResult (α : Type) where
  state : WorkerState
  sendTime : ℚ
  outcome : Except LLMError α

/-- One iteration of `llm_worker`'s loop body (lines 22-42) for one job:
read the clock after the dequeue (line 23), run the back-off loop
(lines 25-28), evict stale entries (lines 30-31), append the admission
instant (line 33), perform the downstream call, and resolve the future with
its result or exception (lines 35-40). -/
def llm_worker_step (parse : String → Option α) (R : ℕ) (s : WorkerState) (js : JobSched) :
    StepResult α :=
  let tDequeue := s.now + js.dequeueDelay
  let tSend := rateLimitWait R s.llm_request_timestamps tDequeue js.sleepDelays
  { state :=
      { now := tSend + js.sendDuration
        llm_request_timestamps := evictStale tSend s.llm_request_timestamps ++ [tSend] }
    sendTime := tSend
    outcome := send_request parse js.downstream }

/-- The instant of the first line-25 admission check for a job: the clock
value read at line 23, right after the dequeue. The check at line 25 runs
BEFORE the eviction loop at lines 30-31. -/
def admissionCheckTime (s : WorkerState) (js : JobSched) : ℚ :=
  s.now + js.dequeueDelay

/-- The window that the line-25 admission check reads: the deque as left by
the previous job — no eviction has run yet for the current job. -/
def windowAtAdmissionCheck (s : WorkerState) : List ℚ :=
  s.llm_request_timestamps

/-- Observable events of a worker execution: a downstream send for job
`jobIdx` at a given instant, and the resolution of job `jobIdx`'s future
with its outcome. -/
inductive Event (α : Type) where
  | send (jobIdx : ℕ) (t : ℚ)
  | resolve (jobIdx : ℕ) (outcome : Except LLMError α)

/-- The worker state after processing a finite prefix of jobs in queue
order. -/
def runState (parse : String → Option α) (R : ℕ) : WorkerState → List JobSched → WorkerState
  | s, [] => s
  | s, js :: rest => runState parse R (llm_worker_step parse R s js).state rest

/-- The event trace of `llm_worker` processing jobs `idx, idx+1, ...` in
queue order: each job produces its send and then its resolution, and the
loop moves on to the next job whatever the outcome was. -/
def llm_worker_run (parse : String → Option α) (R : ℕ) :
    WorkerState → ℕ → List JobSched → List (Event α)
  | _, _, [] => []
  | s, idx, js :: rest =>
    let p := llm_worker_step parse R s js
    Event.send idx p.sendTime :: Event.resolve idx p.outcome ::
      llm_worker_run parse R p.state (idx + 1) rest

/-- The send instants of a trace, in order. -/
def sendTimes (evts : List (Event α)) : List ℚ :=
  evts.filterMap fun e =>
    match e with
    | .send _ t => some t
    | .resolve _ _ => none

/-- The job indices of the sends of a trace, in order. -/
def sendIdxs (evts : List (Event α)) : List ℕ :=
  evts.filterMap fun e =>
    match e with
    | .send j _ => some j
    | .resolve _ _ => none

/-- The future resolutions of a trace, in order. -/
def resolutions (evts : List (Event α)) : List (Except LLMError α) :=
  evts.filterMap fun e =>
    match e with
    | .send _ _ => none
    | .resolve _ o => some o

/-- Whether an event resolves job `j`'s future. -/
def Event.isResolveFor (j : ℕ) : Event α → Bool
  | .send _ _ => false
  | .resolve i _ => i == j

/-- Membership of a timestamp in the trailing 60-second interval `(t-60, t]`. -/
def inWindow (t x : ℚ) : Bool :=
  decide (t - 60 < x) && decide (x ≤ t)

/-- A concrete JSON parser stand-in for instantiating theorems: every body
parses to itself except the marker `"not json"`. -/
def parseTest : String → Option String :=
  fun s => if s = "not json" then none else some s

/-! ### Basic lemmas about the limiter primitives -/

theorem backoffCond_eq_false_iff (R : ℕ) (w : List ℚ) (now : ℚ) :
    backoffCond R w now = false ↔ w.length < R ∨ ∀ h ∈ w.head?, 60 ≤ now - h := by
  cases w with
  | nil => simp [backoffCond]
  | cons a t =>
    simp only [backoffCond, List.head?_cons, Bool.and_eq_false_iff, decide_eq_false_iff_not,
      not_le, Option.mem_def, Option.some.injEq]
    constructor
    · rintro (h | h)
      · exact Or.inl h
      · exact Or.inr fun x hx => hx ▸ not_lt.mp (by simpa using h)
    · rintro (h | h)
      · exact Or.inl h
      · exact Or.inr (by simpa using not_lt.mpr (h a rfl))

theorem le_rateLimitWait (R : ℕ) (w : List ℚ) (now : ℚ) (delays : List ℚ)
    (hd : ∀ d ∈ delays, (0 : ℚ) ≤ d) : now ≤ rateLimitWait R w now delays := by
  induction delays generalizing now with
  | nil => simp [rateLimitWait]
  | cons d ds ih =>
    simp only [rateLimitWait]
    split
    · have h₁ : now ≤ now + d := le_add_of_nonneg_right (hd d (by simp))
      exact h₁.trans (ih (now + d) fun x hx => hd x (List.mem_cons_of_mem _ hx))
    · exact le_refl now

/-- The back-off loop exits only with its guard false, provided the fuel
list is long enough: if the oldest entry is at most `now + |delays| - 60`
away from going stale and every sleep lets at least one second pass, the
guard fails at the returned instant. -/
theorem backoffCond_rateLimitWait (R : ℕ) (w : List ℚ) (now : ℚ) (delays : List ℚ)
    (hw : ∀ h ∈ w.head?, h + 60 ≤ now + delays.length)
    (hd : ∀ d ∈ delays, (1 : ℚ) ≤ d) :
    backoffCond R w (rateLimitWait R w now delays) = false := by
  induction delays generalizing now with
  | nil =>
    simp only [rateLimitWait]
    rw [backoffCond_eq_false_iff]
    exact Or.inr fun h hh => by
      have := hw h hh
      simp only [List.length_nil, Nat.cast_zero, add_zero] at this
      linarith
  | cons d ds ih =>
    simp only [rateLimitWait]
    by_cases hc : backoffCond R w now = true
    · rw [if_pos hc]
      refine ih (now + d) (fun h hh => ?_) fun x hx => hd x (List.mem_cons_of_mem _ hx)
      have h₁ := hw h hh
      have h₂ := hd d (by simp)
      simp only [List.length_cons, Nat.cast_add, Nat.cast_one] at h₁
      have : (ds.length : ℚ) ≥ 0 := by positivity
      linarith
    · rw [if_neg hc]
      exact Bool.not_eq_true _ ▸ (Bool.eq_false_iff.mpr hc)

theorem evictStale_sublist (now : ℚ) (w : List ℚ) : (evictStale now w).Sublist w := by
  induction w with
  | nil => simp [evictStale]
  | cons h t ih =>
    simp only [evictStale]
    split
    · exact ih.trans (List.sublist_cons_self h t)
    · exact List.Sublist.refl _

theorem evictStale_length_le (now : ℚ) (w : List ℚ) :
    (evictStale now w).length ≤ w.length :=
  (evictStale_sublist now w).length_le

/-- On a sorted window, the front-eviction loop removes exactly the stale
entries: what remains is the sublist of entries younger than 60 seconds. -/
theorem evictStale_eq_filter (now : ℚ) (w : List ℚ) (hs : w.Sorted (· ≤ ·)) :
    evictStale now w = w.filter fun x => decide (now - x < 60) := by
  induction w with
  | nil => simp [evictStale]
  | cons h t ih =>
    have hst : t.Sorted (· ≤ ·) := hs.of_cons
    simp only [evictStale, List.filter_cons]
    by_cases hc : (60 : ℚ) ≤ now - h
    · rw [if_pos hc, if_neg (by simpa using not_lt.mpr hc)]
      exact ih hst
    · rw [if_neg hc, if_pos (by simpa using not_le.mp hc)]
      have : ∀ x ∈ t, decide (now - x < 60) = true := by
        intro x hx
        have hhx : h ≤ x := (List.sorted_cons.mp hs).1 x hx
        have : now - h < 60 := not_le.mp hc
        simp only [decide_eq_true_eq]
        linarith
      rw [List.filter_eq_self.mpr this]

/-! ### The main inductive invariant of the worker loop -/

/-- Invariant tying the worker state to `hist`, the full list of send
instants so far (in order): the history is nondecreasing and in the past;
the deque `llm_request_timestamps` consists of exactly the sends younger
than 60 seconds as of some instant `c` at or after the last send; and every
trailing 60-second interval contains at most `R` sends. -/
structure HInv (R : ℕ) (hist : List ℚ) (s : WorkerState) : Prop where
  sorted : hist.Sorted (· ≤ ·)
  hist_le : ∀ x ∈ hist, x ≤ s.now
  window_eq : ∃ c, c ≤ s.now ∧ (∀ x ∈ hist, x ≤ c) ∧
      s.llm_request_timestamps = hist.filter fun x => decide (c - 60 < x)
  count_le : ∀ t : ℚ, hist.countP (inWindow t) ≤ R

theorem HInv.window_length_le {R : ℕ} {hist : List ℚ} {s : WorkerState}
    (h : HInv R hist s) : s.llm_request_timestamps.length ≤ R := by
  obtain ⟨c, _, hxc, hw⟩ := h.window_eq
  rw [hw, ← List.countP_eq_length_filter]
  refine le_trans (List.countP_mono_left fun x hx hp => ?_) (h.count_le c)
  simp only [decide_eq_true_eq] at hp
  simp only [inWindow, Bool.and_eq_true, decide_eq_true_eq]
  exact ⟨hp, hxc x hx⟩

theorem HInv.window_sorted {R : ℕ} {hist : List ℚ} {s : WorkerState}
    (h : HInv R hist s) : s.llm_request_timestamps.Sorted (· ≤ ·) := by
  obtain ⟨c, _, _, hw⟩ := h.window_eq
  rw [hw]
  exact h.sorted.filter _

theorem HInv.initial (R : ℕ) (t0 : ℚ) : HInv R [] ⟨t0, []⟩ :=
  ⟨List.sorted_nil, by simp, ⟨t0, le_refl _, by simp, by simp⟩, by simp⟩

/-- One worker iteration preserves the invariant, extending the history by
the new send instant; moreover time only moves forward and the new window
holds exactly the fresh sends as of the new send instant. -/
theorem llm_worker_step_HInv (parse : String → Option α) {R : ℕ} (hR : 1 ≤ R)
    {hist : List ℚ} {s : WorkerState} {js : JobSched}
    (hv : ValidSched js) (h : HInv R hist s) :
    HInv R (hist ++ [(llm_worker_step parse R s js).sendTime])
      (llm_worker_step parse R s js).state ∧
    s.now ≤ (llm_worker_step parse R s js).sendTime ∧
    ∀ x ∈ (llm_worker_step parse R s js).state.llm_request_timestamps,
      (llm_worker_step parse R s js).sendTime - 60 < x ∧
        x ≤ (llm_worker_step parse R s js).sendTime := by
  set w := s.llm_request_timestamps with hw_def
  set tDeq := s.now + js.dequeueDelay with htDeq
  set tSend := rateLimitWait R w tDeq js.sleepDelays with htSend
  have hstep_send : (llm_worker_step parse R s js).sendTime = tSend := rfl
  have hstep_now : (llm_worker_step parse R s js).state.now = tSend + js.sendDuration := rfl
  have hstep_win : (llm_worker_step parse R s js).state.llm_request_timestamps
      = evictStale tSend w ++ [tSend] := rfl
  have hdelays0 : ∀ d ∈ js.sleepDelays, (0 : ℚ) ≤ d :=
    fun d hd => le_trans zero_le_one (hv.sleep_ge_one d hd)
  have h0 : s.now ≤ tDeq := le_add_of_nonneg_right hv.dequeue_nonneg
  have h1 : tDeq ≤ tSend := le_rateLimitWait R w tDeq js.sleepDelays hdelays0
  have hsnow : s.now ≤ tSend := h0.trans h1
  obtain ⟨c, hc_le, hc_max, hw_eq⟩ := h.window_eq
  rw [← hw_def] at hw_eq
  have hlen60 : (60 : ℚ) ≤ (js.sleepDelays.length : ℚ) := by
    exact_mod_cast hv.sleep_enough
  have hexit : backoffCond R w tSend = false := by
    refine backoffCond_rateLimitWait R w tDeq js.sleepDelays (fun hd hhd => ?_) hv.sleep_ge_one
    have hmem : hd ∈ w := List.mem_of_mem_head? hhd
    have : hd ∈ hist := by
      rw [hw_eq] at hmem
      exact List.mem_of_mem_filter hmem
    have := h.hist_le hd this
    linarith
  have hwsorted : w.Sorted (· ≤ ·) := h.window_sorted
  have hfilter : evictStale tSend w = w.filter fun x => decide (tSend - x < 60) :=
    evictStale_eq_filter tSend w hwsorted
  have hw1 : evictStale tSend w = hist.filter fun x => decide (tSend - 60 < x) := by
    rw [hfilter, hw_eq, List.filter_filter]
    refine List.filter_congr fun x hx => ?_
    have hxc := hc_max x hx
    by_cases hb : tSend - 60 < x
    · have ha1 : tSend - x < 60 := by linarith
      have ha2 : c - 60 < x := by linarith
      simp [ha1, ha2, hb]
    · have ha1 : ¬ tSend - x < 60 := by
        push_neg at hb ⊢
        linarith
      simp [ha1, hb]
  have hnewwin : evictStale tSend w ++ [tSend]
      = (hist ++ [tSend]).filter fun x => decide (tSend - 60 < x) := by
    rw [List.filter_append, hw1]
    congr 1
    simp only [List.filter_cons, List.filter_nil]
    rw [if_pos]
    simp only [decide_eq_true_eq]
    linarith
  have hw1_len : (evictStale tSend w).length + 1 ≤ R := by
    rcases (backoffCond_eq_false_iff R w tSend).mp hexit with hlt | hstale
    · exact Nat.succ_le_of_lt (lt_of_le_of_lt (evictStale_length_le tSend w) hlt)
    · by_cases hww : w = []
      · rw [hww]
        simpa [evictStale] using hR
      · have hhd : w.head hww ∈ w.head? := by
          rw [List.head?_eq_head hww]
          rfl
        have hstale_hd := hstale (w.head hww) hhd
        have hmem : w.head hww ∈ w := List.head_mem hww
        have hlt : (w.filter fun x => decide (tSend - x < 60)).length < w.length := by
          refine List.length_filter_lt_length_iff_exists.mpr ⟨w.head hww, hmem, ?_⟩
          simp only [decide_eq_true_eq, not_lt]
          linarith
        rw [hfilter]
        have hwin_le : w.length ≤ R := h.window_length_le
        exact Nat.succ_le_of_lt (lt_of_lt_of_le hlt hwin_le)
  have hfresh : ∀ x ∈ evictStale tSend w ++ [tSend], tSend - 60 < x ∧ x ≤ tSend := by
    intro x hx'
    rcases List.mem_append.mp hx' with hx'' | hx''
    · rw [hw1] at hx''
      have hp1 : decide (tSend - 60 < x) = true := (List.mem_filter.mp hx'').2
      have hp1' : tSend - 60 < x := by simpa using hp1
      have hp2 : x ∈ hist := (List.mem_filter.mp hx'').1
      exact ⟨hp1', (h.hist_le x hp2).trans hsnow⟩
    · simp only [List.mem_singleton] at hx''
      subst hx''
      exact ⟨show tSend - 60 < tSend by linarith, le_refl tSend⟩
  refine ⟨⟨?_, ?_, ?_, ?_⟩, hstep_send ▸ hsnow, fun x hx => hfresh x hx⟩
  · rw [hstep_send, List.Sorted, List.pairwise_append]
    refine ⟨h.sorted, List.pairwise_singleton _ _, fun a ha b hb => ?_⟩
    simp only [List.mem_singleton] at hb
    subst hb
    exact (h.hist_le a ha).trans hsnow
  · intro x hx
    rw [hstep_send] at hx
    rw [hstep_now]
    rcases List.mem_append.mp hx with hx | hx
    · have := h.hist_le x hx
      have := hv.send_nonneg
      linarith
    · simp only [List.mem_singleton] at hx
      subst hx
      exact le_add_of_nonneg_right hv.send_nonneg
  · refine ⟨tSend, ?_, ?_, ?_⟩
    · exact le_add_of_nonneg_right hv.send_nonneg
    · intro x hx
      rcases List.mem_append.mp hx with hx | hx
      · exact (h.hist_le x hx).trans hsnow
      · simp only [List.mem_singleton] at hx
        subst hx
        exact le_refl _
    · rw [hstep_win, hstep_send, hnewwin]
  · intro t
    rw [hstep_send, List.countP_append]
    by_cases hin : inWindow t tSend = true
    · have hin' := hin
      simp only [inWindow, Bool.and_eq_true, decide_eq_true_eq] at hin'
      obtain ⟨hin1, hin2⟩ := hin'
      have hmono : hist.countP (inWindow t) ≤
          hist.countP fun x => decide (tSend - 60 < x) := by
        refine List.countP_mono_left fun x hx hp => ?_
        simp only [inWindow, Bool.and_eq_true, decide_eq_true_eq] at hp
        simp only [decide_eq_true_eq]
        linarith [hp.1]
      have hc1 : List.countP (inWindow t) [tSend] = 1 := by
        simp [hin]
      rw [hc1]
      calc hist.countP (inWindow t) + 1
          ≤ (hist.filter fun x => decide (tSend - 60 < x)).length + 1 := by
            rw [← List.countP_eq_length_filter]
            exact Nat.add_le_add_right hmono 1
        _ = (evictStale tSend w).length + 1 := by rw [hw1]
        _ ≤ R := hw1_len
    · have hc0 : List.countP (inWindow t) [tSend] = 0 := by
        simp only [List.countP_cons, List.countP_nil]
        rw [if_neg]
        simpa using hin
      rw [hc0, Nat.add_zero]
      exact h.count_le t

/-! ### Run-level lemmas -/

theorem llm_worker_run_cons (parse : String → Option α) (R : ℕ) (s : WorkerState)
    (idx : ℕ) (js : JobSched) (rest : List JobSched) :
    llm_worker_run parse R s idx (js :: rest) =
      Event.send idx (llm_worker_step parse R s js).sendTime ::
        Event.resolve idx (llm_worker_step parse R s js).outcome ::
          llm_worker_run parse R (llm_worker_step parse R s js).state (idx + 1) rest := rfl

theorem sendTimes_cons_send (idx : ℕ) (t : ℚ) (evts : List (Event α)) :
    sendTimes (Event.send idx t :: evts) = t :: sendTimes evts := by
  simp [sendTimes]

theorem sendTimes_cons_resolve (idx : ℕ) (o : Except LLMError α) (evts : List (Event α)) :
    sendTimes (Event.resolve idx o :: evts) = sendTimes evts := by
  simp [sendTimes]

/-- A worker execution from any invariant-satisfying state keeps every
trailing 60-second window at or below `R` sends, counting the entire
history. -/
theorem llm_worker_run_count (parse : String → Option α) {R : ℕ} (hR : 1 ≤ R) :
    ∀ (scheds : List JobSched) (s : WorkerState) (hist : List ℚ) (idx : ℕ),
      (∀ js ∈ scheds, ValidSched js) → HInv R hist s →
      ∀ t : ℚ, (hist ++ sendTimes (llm_worker_run parse R s idx scheds)).countP (inWindow t) ≤ R := by
  intro scheds
  induction scheds with
  | nil =>
    intro s hist idx _ h t
    simpa [llm_worker_run, sendTimes] using h.count_le t
  | cons js rest ih =>
    intro s hist idx hv h t
    have hstep := llm_worker_step_HInv parse hR (hv js (by simp)) h
    rw [llm_worker_run_cons, sendTimes_cons_send, sendTimes_cons_resolve,
      show hist ++ ((llm_worker_step parse R s js).sendTime ::
          sendTimes (llm_worker_run parse R (llm_worker_step parse R s js).state (idx + 1) rest))
        = (hist ++ [(llm_worker_step parse R s js).sendTime]) ++
            sendTimes (llm_worker_run parse R (llm_worker_step parse R s js).state (idx + 1) rest)
        from by simp]
    exact ih _ _ (idx + 1) (fun js' hjs' => hv js' (List.mem_cons_of_mem _ hjs')) hstep.1 t

/-- The invariant is maintained along any valid execution (with some
extended history). -/
theorem runState_HInv (parse : String → Option α) {R : ℕ} (hR : 1 ≤ R) :
    ∀ (scheds : List JobSched) (s : WorkerState) (hist : List ℚ),
      (∀ js ∈ scheds, ValidSched js) → HInv R hist s →
      ∃ hist', HInv R hist' (runState parse R s scheds) := by
  intro scheds
  induction scheds with
  | nil => intro s hist _ h; exact ⟨hist, h⟩
  | cons js rest ih =>
    intro s hist hv h
    have hstep := llm_worker_step_HInv parse hR (hv js (by simp)) h
    exact ih _ _ (fun js' hjs' => hv js' (List.mem_cons_of_mem _ hjs')) hstep.1

/-- The resolutions of an execution, in order, are exactly the per-job
outcomes of `_send_request`: each job's future is resolved with its own
result or exception, failures included, and the loop continues past them. -/
theorem resolutions_run (parse : String → Option α) (R : ℕ) :
    ∀ (scheds : List JobSched) (s : WorkerState) (idx : ℕ),
      resolutions (llm_worker_run parse R s idx scheds) =
        scheds.map fun js => send_request parse js.downstream := by
  intro scheds
  induction scheds with
  | nil => intro s idx; simp [llm_worker_run, resolutions]
  | cons js rest ih =>
    intro s idx
    rw [llm_worker_run_cons]
    simp only [resolutions, List.filterMap_cons, List.map_cons]
    rw [← resolutions]
    rw [ih]
    rfl

/-- Every scheduled job gives rise to exactly one downstream send. -/
theorem sendTimes_run_length (parse : String → Option α) (R : ℕ) :
    ∀ (scheds : List JobSched) (s : WorkerState) (idx : ℕ),
      (sendTimes (llm_worker_run parse R s idx scheds)).length = scheds.length := by
  intro scheds
  induction scheds with
  | nil => intro s idx; simp [llm_worker_run, sendTimes]
  | cons js rest ih =>
    intro s idx
    rw [llm_worker_run_cons, sendTimes_cons_send, sendTimes_cons_resolve]
    simp [ih]

/-- The sends of an execution carry the job indices in submission order. -/
theorem sendIdxs_run (parse : String → Option α) (R : ℕ) :
    ∀ (scheds : List JobSched) (s : WorkerState) (idx : ℕ),
      sendIdxs (llm_worker_run parse R s idx scheds) = List.range' idx scheds.length := by
  intro scheds
  induction scheds with
  | nil => intro s idx; simp [llm_worker_run, sendIdxs]
  | cons js rest ih =>
    intro s idx
    rw [llm_worker_run_cons]
    simp only [sendIdxs, List.filterMap_cons, List.length_cons, List.range'_succ]
    rw [← sendIdxs, ih]

/-- Each job index in an execution's range is resolved exactly once; indices
outside it never. -/
theorem countP_isResolveFor_run (parse : String → Option α) (R : ℕ) :
    ∀ (scheds : List JobSched) (s : WorkerState) (idx j : ℕ),
      (llm_worker_run parse R s idx scheds).countP (Event.isResolveFor j) =
        if idx ≤ j ∧ j < idx + scheds.length then 1 else 0 := by
  intro scheds
  induction scheds with
  | nil =>
    intro s idx j
    simp only [llm_worker_run, List.countP_nil, List.length_nil, Nat.add_zero]
    rw [eq_comm, if_neg (by omega)]
  | cons js rest ih =>
    intro s idx j
    rw [llm_worker_run_cons]
    simp only [List.countP_cons, Event.isResolveFor, List.length_cons]
    rw [ih]
    simp only [beq_iff_eq, Bool.false_eq_true, if_false, Nat.add_zero]
    split_ifs <;> omega

/-- FIFO of the admission queue under any interleaving: the jobs handed to
the worker, in processing order, followed by the jobs still queued, are
exactly the submitted jobs in submission order — nothing is skipped,
reordered, or admitted ahead of an earlier submission. -/
theorem runOps_fifo (β : Type) :
    ∀ (ops : List (BrokerOp β)) (p q : List β),
      (ops.foldl opStep (p, q)).1 ++ (ops.foldl opStep (p, q)).2 =
        p ++ q ++ submittedJobs ops := by
  intro ops
  induction ops with
  | nil => intro p q; simp [submittedJobs]
  | cons op rest ih =>
    intro p q
    cases op with
    | submit j =>
      simp only [List.foldl_cons, opStep, submittedJobs, List.filterMap_cons]
      rw [← submittedJobs, ih]
      simp
    | workerGet =>
      cases q with
      | nil =>
        simp only [List.foldl_cons, opStep, submittedJobs, List.filterMap_cons]
        rw [← submittedJobs, ih]
      | cons x xs =>
        simp only [List.foldl_cons, opStep, submittedJobs, List.filterMap_cons]
        rw [← submittedJobs, ih]
        simp

/-! ### Concrete schedules used to instantiate the theorems -/

/-- A job submitted with no delay, whose downstream call replies 200
instantly; its back-off fuel is the always-sufficient 60 unit sleeps. -/
def promptJob : JobSched :=
  ⟨0, List.replicate 60 1, 0, Downstream.reply ⟨200, "ok"⟩⟩

/-- A job dequeued 100 seconds after the previous job finished. -/
def lateJob : JobSched :=
  ⟨100, List.replicate 60 1, 0, Downstream.reply ⟨200, "ok"⟩⟩

theorem promptJob_valid : ∀ js ∈ [promptJob], ValidSched js := by
  intro js hjs
  simp only [List.mem_singleton] at hjs
  subst hjs
  refine ⟨by norm_num [promptJob], by norm_num [promptJob], ?_, by norm_num [promptJob]⟩
  intro d hd
  simp only [promptJob, List.mem_replicate] at hd
  rw [hd.2]

/-! ### The claims -/

/-- C1: for every positive configured rate limit `R` and every execution of
the worker loop from the initial state (empty deque), at most `R`
downstream sends occur within any trailing 60-second interval: for every
time `t`, the number of appended timestamps lying in `(t-60, t]` is at
most `R`. -/
theorem rate_limit_window_bound (parse : String → Option α) (R : ℕ) (hR : 1 ≤ R)
    (scheds : List JobSched) (hv : ∀ js ∈ scheds, ValidSched js) (t0 : ℚ) (t : ℚ) :
    (sendTimes (llm_worker_run parse R ⟨t0, []⟩ 0 scheds)).countP (inWindow t) ≤ R := by
  simpa using llm_worker_run_count parse hR scheds ⟨t0, []⟩ [] 0 hv (HInv.initial R t0) t

theorem rate_limit_window_bound_witness :
    (sendTimes (llm_worker_run parseTest 1 ⟨0, []⟩ 0 [promptJob])).countP (inWindow 0) ≤ 1 :=
  rate_limit_window_bound parseTest 1 (le_refl 1) [promptJob] promptJob_valid 0 0

/-- C2: downstream sends occur in exactly the submission order: under any
interleaving of concurrent submitters with the worker, the jobs the worker
receives (followed by those still queued) are the submitted jobs in
submission order, and the worker's sends carry the job indices in exactly
that order — no job skipped, reordered, or admitted ahead of an
earlier-queued one. -/
theorem fifo_order (β : Type) (ops : List (BrokerOp β)) :
    (runOps ops).1 ++ (runOps ops).2 = submittedJobs ops ∧
    ∀ (α : Type) (parse : String → Option α) (R : ℕ) (s : WorkerState) (idx : ℕ)
      (scheds : List JobSched),
      sendIdxs (llm_worker_run parse R s idx scheds) = List.range' idx scheds.length := by
  constructor
  · simpa [runOps] using runOps_fifo β ops [] []
  · intro α parse R s idx scheds
    exact sendIdxs_run parse R scheds s idx

/-- C3: the worker loop never dies with a job: every scheduled job is
attempted (one send per job) and every job's future is resolved with that
job's own outcome — an exception from the downstream call becomes a failure
outcome via `set_exception` and the loop goes on to the next job. -/
theorem fault_isolation (parse : String → Option α) (R : ℕ) (s : WorkerState)
    (idx : ℕ) (scheds : List JobSched) :
    resolutions (llm_worker_run parse R s idx scheds) =
      (scheds.map fun js => send_request parse js.downstream) ∧
    (sendTimes (llm_worker_run parse R s idx scheds)).length = scheds.length :=
  ⟨resolutions_run parse R scheds s idx, sendTimes_run_length parse R scheds s idx⟩

set_option maxRecDepth 8000 in
/-- C4 (counterexample): the claimed "at all times every stored timestamp is
within the trailing 60 seconds, and stale entries are evicted before each
admission decision" fails on the code: after a send at time 0 (rate limit
1), a job dequeued at time 100 finds the timestamp 0 still in the deque at
its line-25 admission check — the entry is 100 seconds old and has not been
evicted, because eviction (lines 30-31) runs only after the back-off loop
(line 25). -/
theorem stale_at_admission_check_cex :
    (0 : ℚ) ∈ windowAtAdmissionCheck (runState parseTest 1 ⟨0, []⟩ [promptJob]) ∧
    ¬ (admissionCheckTime (runState parseTest 1 ⟨0, []⟩ [promptJob]) lateJob - 60 < (0 : ℚ)) := by
  constructor
  · norm_num [runState, llm_worker_step, promptJob, rateLimitWait, backoffCond, evictStale,
      windowAtAdmissionCheck, List.replicate]
  · norm_num [runState, llm_worker_step, promptJob, lateJob, rateLimitWait, backoffCond,
      evictStale, admissionCheckTime, List.replicate]

/-- C4 (amended): stale entries may persist while the worker is between
jobs or sleeping, and the admission check runs before eviction; but within
each job's processing, eviction precedes the append, so immediately after
each append — i.e. at every send instant — every timestamp in the deque
lies in the trailing 60-second interval of that instant. -/
theorem window_fresh_at_send (parse : String → Option α) (R : ℕ) (hR : 1 ≤ R)
    (scheds : List JobSched) (hv : ∀ js ∈ scheds, ValidSched js) (t0 : ℚ)
    (k : ℕ) (hk : k < scheds.length) :
    ∀ x ∈ (llm_worker_step parse R (runState parse R ⟨t0, []⟩ (scheds.take k))
        (scheds.get ⟨k, hk⟩)).state.llm_request_timestamps,
      (llm_worker_step parse R (runState parse R ⟨t0, []⟩ (scheds.take k))
        (scheds.get ⟨k, hk⟩)).sendTime - 60 < x ∧
        x ≤ (llm_worker_step parse R (runState parse R ⟨t0, []⟩ (scheds.take k))
          (scheds.get ⟨k, hk⟩)).sendTime := by
  obtain ⟨hist, hinv⟩ := runState_HInv parse hR (scheds.take k) ⟨t0, []⟩ []
    (fun js hjs => hv js ((List.take_sublist k scheds).subset hjs)) (HInv.initial R t0)
  exact (llm_worker_step_HInv parse hR (hv _ (scheds.get_mem _ _)) hinv).2.2

set_option maxRecDepth 8000 in
theorem window_fresh_at_send_witness :
    (llm_worker_step parseTest 1 (runState parseTest 1 ⟨0, []⟩ ([promptJob].take 0))
        ([promptJob].get ⟨0, Nat.zero_lt_one⟩)).sendTime - 60 < 0 ∧
      (0 : ℚ) ≤ (llm_worker_step parseTest 1 (runState parseTest 1 ⟨0, []⟩ ([promptJob].take 0))
        ([promptJob].get ⟨0, Nat.zero_lt_one⟩)).sendTime :=
  window_fresh_at_send parseTest 1 (le_refl 1) [promptJob] promptJob_valid 0 0
    Nat.zero_lt_one 0
    (by norm_num [runState, llm_worker_step, promptJob, rateLimitWait, backoffCond,
      evictStale, List.replicate])

set_option maxRecDepth 8000 in
/-- C5: with rate limit 2, three jobs submitted at t = 0 and instantaneous
downstream replies, the sends for jobs 1 and 2 happen at t = 0 and the send
for job 3 happens at t = 60, exactly when the window frees up (the model's
back-off sleeps take exactly the 1-second poll interval). -/
theorem three_jobs_rate2_scenario :
    sendTimes (llm_worker_run parseTest 2 ⟨0, []⟩ 0 [promptJob, promptJob, promptJob])
      = [0, 0, 60] := by
  norm_num [llm_worker_run, llm_worker_step, sendTimes, promptJob, rateLimitWait,
    backoffCond, evictStale, List.replicate, List.filterMap]

/-- C6: the downstream send's outcome, as delivered on the job's future: a
non-2xx response yields a failure carrying the status and body; a transport
failure yields a failure carrying the transport error; a 2xx response whose
body parses yields the parsed value; and the worker resolves the job's
future with exactly this outcome. -/
theorem downstream_outcome_mapping (parse : String → Option α) :
    (∀ status body, ¬ isSuccessStatus status = true →
      send_request parse (Downstream.reply ⟨status, body⟩) =
        Except.error (LLMError.httpStatusError status body)) ∧
    (∀ msg, send_request parse (Downstream.noResponse msg) =
      Except.error (LLMError.transportError msg)) ∧
    (∀ status body v, isSuccessStatus status = true → parse body = some v →
      send_request parse (Downstream.reply ⟨status, body⟩) = Except.ok v) ∧
    (∀ (R : ℕ) (s : WorkerState) (idx : ℕ) (js : JobSched) (rest : List JobSched),
      Event.resolve idx (send_request parse js.downstream) ∈
        llm_worker_run parse R s idx (js :: rest)) := by
  refine ⟨?_, ?_, ?_, ?_⟩
  · intro status body h
    simp only [send_request, if_neg h]
  · intro msg
    rfl
  · intro status body v hs hp
    simp [send_request, hs, hp]
  · intro R s idx js rest
    rw [llm_worker_run_cons]
    exact List.mem_cons_of_mem _ (List.mem_cons_self _ _)

theorem downstream_outcome_mapping_witness :
    send_request parseTest (Downstream.reply ⟨503, "busy"⟩) =
      Except.error (LLMError.httpStatusError 503 "busy") ∧
    send_request parseTest (Downstream.noResponse "connection refused") =
      Except.error (LLMError.transportError "connection refused") ∧
    send_request parseTest (Downstream.reply ⟨200, "ok"⟩) = Except.ok "ok" :=
  ⟨(downstream_outcome_mapping parseTest).1 503 "busy" (by decide),
   (downstream_outcome_mapping parseTest).2.1 "connection refused",
   (downstream_outcome_mapping parseTest).2.2.1 200 "ok" "ok" (by decide)
     (by simp [parseTest])⟩

/-- C7: every job whose index falls in the executed range has its future
resolved exactly once (indices outside it, never); a resolved future
rejects any further `set_result`/`set_exception`; and awaiting a resolved
future always yields the stored outcome, so a second await sees the same
outcome as the first. -/
theorem resolution_once (parse : String → Option α) (R : ℕ) (s : WorkerState)
    (idx j : ℕ) (scheds : List JobSched) (o o₂ : Except LLMError α) :
    ((llm_worker_run parse R s idx scheds).countP (Event.isResolveFor j) =
      if idx ≤ j ∧ j < idx + scheds.length then 1 else 0) ∧
    FutureState.trySet (FutureState.resolved o) o₂ = none ∧
    FutureState.awaitResult (FutureState.resolved o) = some o :=
  ⟨countP_isResolveFor_run parse R scheds s idx j, rfl, rfl⟩

/-- C8: `send_llm_request` never blocks the caller past the enqueue:
`llm_queue` is constructed unbounded (`maxsize = 0`), so `put` can never
find it full, whatever its depth; submission appends the job and hands back
a still-pending future — the caller suspends only when it awaits it. -/
theorem submit_never_blocks (α β : Type) (items : List β) (x : β)
    (q : AsyncQueue QueueItem) (url payload : String) :
    (AsyncQueue.mk llm_queue_maxsize items).putWouldBlock = false ∧
    ((AsyncQueue.mk llm_queue_maxsize items).put x).items = items ++ [x] ∧
    (send_llm_request (α := α) q url payload).2 = FutureState.pending ∧
    (send_llm_request (α := α) q url payload).1.items = q.items ++ [⟨url, payload⟩] := by
  refine ⟨?_, rfl, rfl, rfl⟩
  simp [AsyncQueue.putWouldBlock, AsyncQueue.isFull, llm_queue_maxsize]

/-- C9: for every positive rate limit `R`, at every point of every valid
execution from the initial state, the deque `llm_request_timestamps` holds
at most `R` entries. -/
theorem window_length_bound (parse : String → Option α) (R : ℕ) (hR : 1 ≤ R)
    (scheds : List JobSched) (hv : ∀ js ∈ scheds, ValidSched js) (t0 : ℚ) (k : ℕ) :
    ((runState parse R ⟨t0, []⟩ (scheds.take k)).llm_request_timestamps).length ≤ R := by
  obtain ⟨hist, hinv⟩ := runState_HInv parse hR (scheds.take k) ⟨t0, []⟩ []
    (fun js hjs => hv js ((List.take_sublist k scheds).subset hjs)) (HInv.initial R t0)
  exact hinv.window_length_le

theorem window_length_bound_witness :
    ((runState parseTest 1 ⟨0, []⟩ ([promptJob].take 1)).llm_request_timestamps).length ≤ 1 :=
  window_length_bound parseTest 1 (le_refl 1) [promptJob] promptJob_valid 0 1

/-- C10: a 2xx response whose body is not valid JSON does not resolve the
future with a success: `response.json()`'s decode error is the job's
outcome, delivered as a failure, and the worker still processes the next
job normally. -/
theorem invalid_json_failure (parse : String → Option α) (r : Response)
    (hs : isSuccessStatus r.status = true) (hp : parse r.body = none) :
    send_request parse (Downstream.reply r) =
      Except.error (LLMError.jsonDecodeError r.body) ∧
    (∀ v, send_request parse (Downstream.reply r) ≠ Except.ok v) ∧
    (∀ (R : ℕ) (s : WorkerState) (idx : ℕ) (js1 js2 : JobSched),
      js1.downstream = Downstream.reply r →
      resolutions (llm_worker_run parse R s idx [js1, js2]) =
        [Except.error (LLMError.jsonDecodeError r.body),
          send_request parse js2.downstream]) := by
  have hmain : send_request parse (Downstream.reply r) =
      Except.error (LLMError.jsonDecodeError r.body) := by
    simp [send_request, hs, hp]
  refine ⟨hmain, ?_, ?_⟩
  · intro v h
    rw [hmain] at h
    exact Except.noConfusion h
  · intro R s idx js1 js2 hjs
    rw [resolutions_run]
    simp [hjs, hmain]

theorem invalid_json_failure_witness :
    send_request parseTest (Downstream.reply ⟨200, "not json"⟩) =
      Except.error (LLMError.jsonDecodeError "not json") :=
  (invalid_json_failure parseTest ⟨200, "not json"⟩ (by decide) (by simp [parseTest])).1

end LLMConnector
